import Mathlib

/-!
Shallow embedding of the model-selection, storage and aggregation pipeline of
`nestfit` (files `nestfit/main.py`, with `nestfit/core.py` a legacy variant).

Conventions used throughout:
* Floating-point evidence values are embedded as rationals (`ℚ`); a value that
  is non-finite in the source (`NaN`/`Inf`, rejected by `np.isfinite`) is
  embedded as `none : Option ℚ`.
* Python code that raises (a failed `assert`, an h5py `KeyError`) is embedded
  in `Except`.
* The external nested sampler is opaque: a pixel's data carries the evidence
  values the sampler would return for each model order, as `Option ℚ`.
-/

namespace NestFit

/-- Per-pixel input data as consumed by `CubeFitter.fit` (main.py:386-426):
`hasNaN` is the `has_nans` flag returned by `stack.get_spectra`, `nullLnZ` is
`runner.null_lnZ` (the null-model evidence), and `runLnZ n` is the sampler's
`runner.run_lnZ` for model order `n ≥ 1`. -/
structure PixelData where
  hasNaN : Bool
  nullLnZ : Option ℚ
  runLnZ : ℕ → Option ℚ

/-- Result of fitting one pixel: the selected `nbest` together with the list of
persisted fit sub-groups `(ncomp, run_lnZ)`, in the order they were written. -/
abbrev FitResult := ℕ × List (ℕ × ℚ)

/-- The `while ncomp <= self.ncomp_max` loop of `CubeFitter.fit`
(main.py:405-422).  `fuel` counts the remaining iterations
(`ncomp_max + 1 - ncomp`, so the loop ends exactly when `fuel = 0`).  Each
iteration creates the sub-group for `ncomp` and runs the sampler; a non-finite
`run_lnZ` fails the `assert np.isfinite(runner.run_lnZ)` (worker aborts,
embedded as `.error ()`).  If `run_lnZ - old_lnZ < lnZ_thresh` the loop breaks
without updating `nbest`; otherwise `old_lnZ` and `nbest` advance. -/
def fitLoopAux (thr : ℚ) (run : ℕ → Option ℚ) :
    ℕ → ℕ → ℚ → ℕ → List (ℕ × ℚ) → Except Unit FitResult
  | 0, _, _, nbest, fits => .ok (nbest, fits)
  | fuel+1, ncomp, oldLnZ, nbest, fits =>
    match run ncomp with
    | none => .error ()
    | some z =>
      if z - oldLnZ < thr then .ok (nbest, fits ++ [(ncomp, z)])
      else fitLoopAux thr run fuel (ncomp+1) z ncomp (fits ++ [(ncomp, z)])

/-- One pixel of the body of `CubeFitter.fit` (main.py:393-425).  A pixel whose
spectra contain NaNs is skipped (`continue`): no group is written, embedded as
`.ok none`.  Otherwise the group is created and the component loop runs; at
`ncomp = 1` the code sets `old_lnZ = runner.null_lnZ` and asserts it finite
(main.py:411-413), so a non-finite null evidence aborts the worker.  When
`ncomp_max = 0` the loop body never executes and the pixel is persisted with
`nbest = 0` and no fit sub-groups. -/
def fitPixel (thr : ℚ) (ncompMax : ℕ) (px : PixelData) :
    Except Unit (Option FitResult) :=
  if px.hasNaN then .ok none
  else if 1 ≤ ncompMax then
    match px.nullLnZ with
    | none => .error ()
    | some z0 => (fitLoopAux thr px.runLnZ ncompMax 1 z0 0 []).map some
  else .ok (some (0, []))

/-- Evidence chain of a pixel: position `0` is the null-model evidence and
position `n ≥ 1` is the sampler's evidence for model order `n`. -/
def pixEv (px : PixelData) : ℕ → Option ℚ
  | 0 => px.nullLnZ
  | n+1 => px.runLnZ (n+1)

/-- Value recorded in the dense `nbest` map by `aggregate_run_attributes`
(main.py:496-502): the map is initialised to `-1` and overwritten with the
group's `nbest` attribute for every pixel group that exists; a pixel with no
completed group keeps the `-1` sentinel. -/
def aggNbest (r : Except Unit (Option FitResult)) : ℤ :=
  match r with
  | .ok (some (k, _)) => (k : ℤ)
  | _ => -1

/-- Dense `nbest` map over a grid of pixels, in grid-layout order. -/
def aggregateNbestMap (thr : ℚ) (ncompMax : ℕ) (grid : List (List PixelData)) :
    List (List ℤ) :=
  grid.map (fun row => row.map (fun px => aggNbest (fitPixel thr ncompMax px)))

/-- The `for (i_lon, i_lat) in zip(all_lon, all_lat)` loop over a worker's
pixels (main.py:393): each pixel is processed in turn; a failed assertion
aborts the whole worker, while a NaN pixel merely contributes no group. -/
def fitAll (thr : ℚ) (ncompMax : ℕ) : List PixelData → Except Unit (List (Option FitResult))
  | [] => .ok []
  | px :: rest =>
    match fitPixel thr ncompMax px with
    | .error e => .error e
    | .ok r => (fitAll thr ncompMax rest).map (fun l => r :: l)

/-! Concrete pixels of the spec's end-to-end scenario (§8): evidence chains
`[0, 15, 40]`, `[0, 5]`, a NaN-contaminated spectrum, and `[0, 20, 25]`. -/

/-- Pixel A of the scenario: chain `[0, 15, 40]`. -/
def pxA : PixelData :=
  ⟨false, some 0, fun n => if n = 1 then some 15 else if n = 2 then some 40 else none⟩

/-- Pixel B of the scenario: chain `[0, 5]`. -/
def pxB : PixelData :=
  ⟨false, some 0, fun n => if n = 1 then some 5 else none⟩

/-- Pixel C of the scenario: a NaN-contaminated spectrum. -/
def pxC : PixelData := ⟨true, some 0, fun _ => none⟩

/-- Pixel D of the scenario: chain `[0, 20, 25]`. -/
def pxD : PixelData :=
  ⟨false, some 0, fun n => if n = 1 then some 20 else if n = 2 then some 25 else none⟩

/-- Pixel with a finite null evidence but a non-finite sampler evidence at
order 1 (for the C9 witness). -/
def pxBad9 : PixelData := ⟨false, some 0, fun _ => none⟩

/-- Evidence chain as seen from an intermediate loop state: position
`ncomp - 1` carries the running `old_lnZ`, later positions the sampler's
evidence for that order. -/
def chFun (run : ℕ → Option ℚ) (ncomp : ℕ) (oldZ : ℚ) (i : ℕ) : Option ℚ :=
  if i = ncomp - 1 then some oldZ else run i

/-- C1: on the 2×2 grid with `N_max = 2` and `lnZ_threshold = 11`, the four
pixels select `nbest = 2, 0, -1, 1` and the aggregated `nbest` map (before
smoothing) equals `[[2, 0], [-1, 1]]` in grid-layout order. -/
theorem c1_end_to_end_scenario :
    aggNbest (fitPixel 11 2 pxA) = 2 ∧
    aggNbest (fitPixel 11 2 pxB) = 0 ∧
    aggNbest (fitPixel 11 2 pxC) = -1 ∧
    aggNbest (fitPixel 11 2 pxD) = 1 ∧
    aggregateNbestMap 11 2 [[pxA, pxB], [pxC, pxD]] = [[2, 0], [-1, 1]] := by
  refine ⟨?_, ?_, ?_, ?_, ?_⟩ <;>
    norm_num [aggregateNbestMap, aggNbest, fitPixel, fitLoopAux, Except.map,
      pxA, pxB, pxC, pxD]

/-- One step of the `for i in range(ncomp_max)` re-selection loop of
`convolve_evidence` (main.py:556-562), per pixel: the smoothed order is bumped
from `i` to `i+1` exactly when it currently equals `i` and the smoothed
evidence increment `cdata[i+1] - cdata[i]` exceeds the threshold. -/
def convStep (thr : ℚ) (cdata : ℕ → ℚ) (acc i : ℕ) : ℕ :=
  if acc = i ∧ thr < cdata (i+1) - cdata i then acc + 1 else acc

/-- The re-selection walk of `convolve_evidence`: starting from `0`, apply
`convStep` for `i = 0, ..., ncomp_max - 1`. -/
def convWalk (thr : ℚ) (cdata : ℕ → ℚ) (ncompMax : ℕ) : ℕ :=
  (List.range ncompMax).foldl (convStep thr cdata) 0

/-- Per-pixel value of `conv_nbest` produced by `convolve_evidence`
(main.py:554-569): the walk's result, then the refill of the unfit sentinel
(`conv_nbest[nbest == -1] = -1`), then the `+1` clamp
(`conv_nbest[overshot] = nbest[overshot] + 1` for
`overshot = conv_nbest - nbest >= 2`), in source order. -/
def convNbest (thr : ℚ) (cdata : ℕ → ℚ) (ncompMax : ℕ) (nbest : ℤ) : ℤ :=
  let c0 : ℤ := (convWalk thr cdata ncompMax : ℤ)
  let c1 : ℤ := if nbest = -1 then -1 else c0
  if 2 ≤ c1 - nbest then nbest + 1 else c1

/-! Model of the `/pix` tree of the linked table file.  The tree is the
nested `lon -> lat -> object` structure traversed by
`HdfStore.iter_pix_groups`; a leaf is either a resolvable pixel group
(carrying its payload), a resolvable non-group object, or a broken external
link. -/

/-- Object reachable under `/pix/<lon>/<lat>` in the table file. -/
inductive Entry (α : Type) where
  | group (a : α)
  | dataset
  | broken
deriving DecidableEq

/-- Modelled from the spec: resolution of one `/pix/<lon>/<lat>` access in
`iter_pix_groups` (main.py:306-308).  The spec (§4.2, §7c) requires traversal
to fail loudly on a missing/broken external link: indexing such a link in the
underlying store raises (h5py `KeyError`), embedded as `.error`; a resolvable
non-group object is returned and then skipped by the
`isinstance(group, h5py.Group)` test, embedded as `.ok none`. -/
def resolveEntry {α : Type} : Entry α → Except String (Option α)
  | .group a => .ok (some a)
  | .dataset => .ok none
  | .broken => .error "Broken external HDF link under /pix"

/-- Inner loop of `HdfStore.iter_pix_groups` (main.py:303-309): walk the
`lat` members of one `lon` group, resolving each object and yielding the
pixel groups in order. -/
def iterLat {α : Type} (lon : ℕ) :
    List (ℕ × Entry α) → Except String (List ((ℕ × ℕ) × α))
  | [] => .ok []
  | (lat, e) :: rest =>
    match resolveEntry e with
    | .error s => .error s
    | .ok none => iterLat lon rest
    | .ok (some a) => (iterLat lon rest).map (fun l => ((lon, lat), a) :: l)

/-- Outer loop of `HdfStore.iter_pix_groups` (main.py:298-309): walk the
`lon` groups of `/pix`, concatenating each one's pixel groups; any error
aborts the traversal. -/
def iterPixGroups {α : Type} :
    List (ℕ × List (ℕ × Entry α)) → Except String (List ((ℕ × ℕ) × α))
  | [] => .ok []
  | (lon, lats) :: rest =>
    match iterLat lon lats with
    | .error s => .error s
    | .ok l1 => (iterPixGroups rest).map (fun l2 => l1 ++ l2)

/-- Registration of one pixel group path `/pix/<lon>/<lat>` in the table tree
(the assignment `self.hdf[group_name] = ExternalLink(...)` in
`HdfStore.link_files`, main.py:317-319): the `lat` leaf is added under the
`lon` group, which is created when it does not exist yet. -/
def insertPix {α : Type} : List (ℕ × List (ℕ × Entry α)) → ℕ → ℕ → Entry α →
    List (ℕ × List (ℕ × Entry α))
  | [], lon, lat, e => [(lon, [(lat, e)])]
  | (lon', lats) :: rest, lon, lat, e =>
    if lon' = lon then (lon', lats ++ [(lat, e)]) :: rest
    else (lon', lats) :: insertPix rest lon lat e

/-- `HdfStore.link_files` (main.py:311-320): for every chunk file in order,
register one external link in the table file per pixel group of the chunk.
A chunk is its list of pixel groups `((lon, lat), payload)`; the links
resolve into the (present) chunk files, so each registered entry is a
resolvable group. -/
def linkFiles {α : Type} (chunks : List (List ((ℕ × ℕ) × α))) :
    List (ℕ × List (ℕ × Entry α)) :=
  chunks.foldl
    (fun t ch =>
      ch.foldl (fun t2 pe => insertPix t2 pe.1.1 pe.1.2 (Entry.group pe.2)) t)
    []

/-- Flattened view of a `/pix` tree: all `((lon, lat), object)` leaves. -/
def flatTree {α : Type} (t : List (ℕ × List (ℕ × Entry α))) :
    List ((ℕ × ℕ) × Entry α) :=
  t.flatMap (fun p => p.2.map (fun q => ((p.1, q.1), q.2)))

/-- Payload of a leaf when it is a pixel group. -/
def groupOfEntry {α : Type} (pe : (ℕ × ℕ) × Entry α) : Option ((ℕ × ℕ) × α) :=
  match pe.2 with
  | .group a => some (pe.1, a)
  | _ => none

/-- The group leaves of a flattened tree, with their payloads. -/
def entryGroups {α : Type} (l : List ((ℕ × ℕ) × Entry α)) : List ((ℕ × ℕ) × α) :=
  l.filterMap groupOfEntry

/-! Model of the grid partitioning `get_multiproc_indices` (main.py:458-464).
`np.indices(shape)` gives `lon_ix[i, j] = i` and `lat_ix[i, j] = j`; worker
`k` receives the rows of the slice `k::nproc`, flattened row-major and zipped
into `(lon, lat)` pairs. -/

/-- Number of elements of the Python slice `a[k::step]` of a length-`n` axis. -/
def sliceCount (n k step : ℕ) : ℕ := (n - k + step - 1) / step

/-- Indices selected by the slice `k::step` on a length-`n` axis:
`k, k + step, k + 2*step, ...` while below `n`. -/
def sliceIdx (n k step : ℕ) : List ℕ := List.range' k (sliceCount n k step) step

/-- Pixels handed to worker `k`: the zipped pair
`(lon_ix[k::nproc].flatten(), lat_ix[k::nproc].flatten())` enumerates every
`(r, c)` with `r` in the worker's row slice and `c` a column, row-major. -/
def procChunk (shape : ℕ × ℕ) (nproc k : ℕ) : List (ℕ × ℕ) :=
  (sliceIdx shape.1 k nproc).flatMap
    (fun r => (List.range shape.2).map (fun c => (r, c)))

/-- `get_multiproc_indices(shape, nproc)` (main.py:458-464): one pixel list
per worker `k < nproc`. -/
def get_multiproc_indices (shape : ℕ × ℕ) (nproc : ℕ) : List (List (ℕ × ℕ)) :=
  (List.range nproc).map (procChunk shape nproc)

/-! Model of `HdfStore.__init__` (main.py:259-282). -/

/-- Persisted top-level attributes of the table file relevant to the
constructor: presence and value of the `nchunks` attribute. -/
structure TableAttrs where
  nchunksAttr : Option ℕ
deriving DecidableEq

/-- `HdfStore.__init__` (main.py:270-275): read `attrs['nchunks']`; when the
attribute exists its value is adopted and the constructor argument is
ignored, otherwise the argument is persisted as the attribute.  Returns the
store's `nchunks` and the table attributes after the call. -/
def hdfStoreInit (attrs : TableAttrs) (nchunksArg : ℕ) : ℕ × TableAttrs :=
  match attrs.nchunksAttr with
  | some n => (n, attrs)
  | none => (nchunksArg, ⟨some nchunksArg⟩)

/-- `HdfStore.chunk_paths` (main.py:277-282): `chunk<i>.hdf` under the store
directory, for `i < nchunks`. -/
def chunk_paths (storeDir : String) (nchunks : ℕ) : List String :=
  (List.range nchunks).map (fun i => storeDir ++ "/chunk" ++ toString i ++ ".hdf")

/-! Characterization of the component loop, used for the chain invariant (C2)
and the fatality of non-finite evidence (C9). -/

/-- Accumulated fits only get appended to: the loop's result with accumulator
`acc` is its result with an empty accumulator, prefixed by `acc`. -/
theorem fitLoopAux_acc (thr : ℚ) (run : ℕ → Option ℚ) (fuel : ℕ) :
    ∀ (ncomp : ℕ) (oldZ : ℚ) (nbest : ℕ) (acc : List (ℕ × ℚ)),
      fitLoopAux thr run fuel ncomp oldZ nbest acc =
        (fitLoopAux thr run fuel ncomp oldZ nbest []).map (fun p => (p.1, acc ++ p.2)) := by
  induction fuel with
  | zero => intro ncomp oldZ nbest acc; simp [fitLoopAux, Except.map]
  | succ fuel ih =>
    intro ncomp oldZ nbest acc
    simp only [fitLoopAux]
    cases hr : run ncomp with
    | none => simp [Except.map]
    | some z =>
      by_cases hz : z - oldZ < thr
      · simp [hz, Except.map]
      · simp only [if_neg hz]
        rw [ih (ncomp+1) z ncomp (acc ++ [(ncomp, z)]),
            ih (ncomp+1) z ncomp ([] ++ [(ncomp, z)])]
        cases fitLoopAux thr run fuel (ncomp+1) z ncomp [] <;> simp [Except.map]

/-- Characterization of a normally terminating component loop started at order
`ncomp` with `nbest = ncomp - 1`: the persisted fits are consecutive orders
starting at `ncomp` with the sampler's (finite) evidences; every accepted step
passed the evidence threshold; and the loop ended either by exhausting the
remaining orders after accepting all of them, or by rejecting exactly the last
persisted fit, whose evidence increment fell below the threshold. -/
theorem fitLoopAux_spec (thr : ℚ) (run : ℕ → Option ℚ) (fuel : ℕ) :
    ∀ (ncomp : ℕ) (oldZ : ℚ) (k : ℕ) (res : List (ℕ × ℚ)),
      1 ≤ ncomp →
      fitLoopAux thr run fuel ncomp oldZ (ncomp - 1) [] = .ok (k, res) →
      res.map Prod.fst = List.range' ncomp res.length ∧
      (∀ p ∈ res, run p.1 = some p.2) ∧
      (ncomp - 1 ≤ k ∧ k + 1 ≤ ncomp + res.length) ∧
      (∀ j, ncomp ≤ j → j ≤ k →
        ∃ a b, chFun run ncomp oldZ (j-1) = some a ∧ chFun run ncomp oldZ j = some b ∧
          thr ≤ b - a) ∧
      ((res.length + (ncomp - 1) = k ∧ fuel + (ncomp - 1) = k) ∨
       (res.length + (ncomp - 1) = k + 1 ∧
        ∃ a b, chFun run ncomp oldZ k = some a ∧ chFun run ncomp oldZ (k+1) = some b ∧
          b - a < thr)) := by
  induction fuel with
  | zero =>
    intro ncomp oldZ k res h1 hres
    simp only [fitLoopAux, Except.ok.injEq, Prod.mk.injEq] at hres
    obtain ⟨hk, hrs⟩ := hres
    subst hrs
    refine ⟨by simp, by simp, by simp only [List.length_nil]; omega,
      ?_, Or.inl (by simp only [List.length_nil]; omega)⟩
    intro j hj1 hj2
    exfalso; omega
  | succ fuel ih =>
    intro ncomp oldZ k res h1 hres
    simp only [fitLoopAux] at hres
    cases hr : run ncomp with
    | none =>
      rw [hr] at hres
      dsimp only at hres
      exact absurd hres (by simp)
    | some z =>
      rw [hr] at hres
      dsimp only at hres
      by_cases hz : z - oldZ < thr
      · rw [if_pos hz] at hres
        simp only [List.nil_append, Except.ok.injEq, Prod.mk.injEq] at hres
        obtain ⟨hk, hrs⟩ := hres
        subst hrs
        refine ⟨by simp, ?_,
          by simp only [List.length_cons, List.length_nil]; omega,
          ?_, Or.inr ⟨by simp only [List.length_cons, List.length_nil]; omega, ?_⟩⟩
        · intro p hp
          rcases List.mem_singleton.mp hp with h
          subst h; exact hr
        · intro j hj1 hj2
          exfalso; omega
        · refine ⟨oldZ, z, ?_, ?_, ?_⟩
          · rw [← hk]; simp [chFun]
          · rw [← hk]
            have h2 : ncomp - 1 + 1 = ncomp := by omega
            rw [h2]
            simp only [chFun, if_neg (by omega : ¬ ncomp = ncomp - 1)]
            exact hr
          · exact hz
      · rw [if_neg hz] at hres
        rw [show ([] : List (ℕ × ℚ)) ++ [(ncomp, z)] = [(ncomp, z)] from rfl] at hres
        rw [fitLoopAux_acc thr run fuel (ncomp+1) z ncomp [(ncomp, z)]] at hres
        cases hbase : fitLoopAux thr run fuel (ncomp+1) z ncomp [] with
        | error e => rw [hbase] at hres; exact absurd hres (by simp [Except.map])
        | ok pr =>
          obtain ⟨k', res'⟩ := pr
          rw [hbase] at hres
          simp only [Except.map, List.singleton_append, Except.ok.injEq,
            Prod.mk.injEq] at hres
          obtain ⟨hk, hrs⟩ := hres
          subst hrs
          rw [hk] at hbase
          have hbase' : fitLoopAux thr run fuel (ncomp+1) z ((ncomp+1) - 1) [] =
              .ok (k, res') := by simpa using hbase
          obtain ⟨A', B', C', D', E'⟩ := ih (ncomp+1) z k res' (by omega) hbase'
          have hch : ∀ i, ncomp ≤ i → chFun run (ncomp+1) z i = chFun run ncomp oldZ i := by
            intro i hi
            simp only [chFun, Nat.add_sub_cancel]
            by_cases hie : i = ncomp
            · rw [if_pos hie, if_neg (by omega : ¬ i = ncomp - 1), hie, hr]
            · rw [if_neg hie, if_neg (by omega : ¬ i = ncomp - 1)]
          refine ⟨?_, ?_, ?_, ?_, ?_⟩
          · simp only [List.map_cons, List.length_cons]
            rw [A', List.range'_succ]
          · intro p hp
            rcases List.mem_cons.mp hp with h | h
            · subst h; exact hr
            · exact B' p h
          · simp only [List.length_cons]; omega
          · intro j hj1 hj2
            by_cases hje : j = ncomp
            · refine ⟨oldZ, z, ?_, ?_, not_lt.mp hz⟩
              · rw [hje]; simp [chFun]
              · rw [hje]
                simp only [chFun, if_neg (by omega : ¬ ncomp = ncomp - 1)]
                exact hr
            · obtain ⟨a, b, ha, hb, hab⟩ := D' j (by omega) hj2
              refine ⟨a, b, ?_, ?_, hab⟩
              · rw [← hch (j-1) (by omega)]; exact ha
              · rw [← hch j (by omega)]; exact hb
          · rcases E' with ⟨hl1, hl2⟩ | ⟨hr1, a, b, ha, hb, hab⟩
            · left
              constructor
              · simp only [List.length_cons]; omega
              · omega
            · right
              have hk1 : ncomp ≤ k := by omega
              refine ⟨by simp only [List.length_cons]; omega, a, b, ?_, ?_, hab⟩
              · rw [← hch k hk1]; exact ha
              · rw [← hch (k+1) (by omega)]; exact hb

/-- Unfolding of a successful `fitPixel` into its loop call. -/
theorem fitPixel_ok_some (thr : ℚ) (M : ℕ) (px : PixelData) (k : ℕ)
    (fits : List (ℕ × ℚ))
    (hres : fitPixel thr M px = .ok (some (k, fits))) (hk : 0 < k) :
    px.hasNaN = false ∧ 1 ≤ M ∧ ∃ z0, px.nullLnZ = some z0 ∧
      fitLoopAux thr px.runLnZ M 1 z0 0 [] = .ok (k, fits) := by
  unfold fitPixel at hres
  cases hnan : px.hasNaN with
  | true => rw [hnan] at hres; exact absurd hres (by simp)
  | false =>
    rw [hnan] at hres
    simp only [Bool.false_eq_true, if_false] at hres
    by_cases hM : 1 ≤ M
    · rw [if_pos hM] at hres
      cases hnull : px.nullLnZ with
      | none =>
        rw [hnull] at hres
        dsimp only at hres
        exact absurd hres (by simp)
      | some z0 =>
        rw [hnull] at hres
        dsimp only at hres
        cases hloop : fitLoopAux thr px.runLnZ M 1 z0 0 [] with
        | error e => rw [hloop] at hres; exact absurd hres (by simp [Except.map])
        | ok pr =>
          obtain ⟨k', fits'⟩ := pr
          rw [hloop] at hres
          simp only [Except.map] at hres
          have := Except.ok.inj hres
          have hkk : k' = k := congrArg Prod.fst (Option.some.inj this)
          have hff : fits' = fits := congrArg Prod.snd (Option.some.inj this)
          refine ⟨rfl, hM, z0, rfl, ?_⟩
          rw [hloop, hkk, hff]
    · rw [if_neg hM] at hres
      have := Option.some.inj (Except.ok.inj hres)
      have : (0 : ℕ) = k := congrArg Prod.fst this
      omega

/-- The intermediate chain view at the start of the loop is the pixel's
evidence chain (null evidence at position `0`, sampler evidence above). -/
theorem chFun_eq_pixEv (px : PixelData) (z0 : ℚ) (h : px.nullLnZ = some z0) :
    ∀ i, chFun px.runLnZ 1 z0 i = pixEv px i := by
  intro i
  cases i with
  | zero => simp [chFun, pixEv, h]
  | succ n => simp [chFun, pixEv]

/-- Consecutive orders: if the persisted orders are `ncomp, ncomp+1, ...` then
every order between `1` and the length is present. -/
theorem mem_of_fst_range (fits : List (ℕ × ℚ))
    (hA : fits.map Prod.fst = List.range' 1 fits.length)
    (i : ℕ) (h1 : 1 ≤ i) (h2 : i ≤ fits.length) : ∃ z, (i, z) ∈ fits := by
  have hmem : i ∈ fits.map Prod.fst := by
    rw [hA, List.mem_range'_1]
    omega
  obtain ⟨p, hp, hpi⟩ := List.mem_map.mp hmem
  obtain ⟨p1, p2⟩ := p
  have h12 : p1 = i := hpi
  subst h12
  exact ⟨p2, hp⟩

/-- C2: for every pixel persisted with `nbest = k > 0`, fit sub-groups exist
for every order `1..k`, each increment of the evidence chain up to order `k`
met the threshold, and whenever order `k+1` was attempted (that is, `k < N_max`
and the loop went on) it was persisted too, with an evidence increment below
the threshold. -/
theorem c2_chain_invariant (thr : ℚ) (M : ℕ) (px : PixelData) (k : ℕ)
    (fits : List (ℕ × ℚ))
    (hres : fitPixel thr M px = .ok (some (k, fits))) (hk : 0 < k) :
    (∀ i, 1 ≤ i → i ≤ k → ∃ z, (i, z) ∈ fits) ∧
    (∀ i, i < k → ∃ a b, pixEv px i = some a ∧ pixEv px (i+1) = some b ∧ thr ≤ b - a) ∧
    (k < M → ∃ a b, pixEv px k = some a ∧ pixEv px (k+1) = some b ∧
      (k+1, b) ∈ fits ∧ b - a < thr) := by
  obtain ⟨hnan, hM, z0, hnull, hloop⟩ := fitPixel_ok_some thr M px k fits hres hk
  obtain ⟨A, B, C, D, E⟩ := fitLoopAux_spec thr px.runLnZ M 1 z0 k fits le_rfl hloop
  have hch := chFun_eq_pixEv px z0 hnull
  refine ⟨?_, ?_, ?_⟩
  · intro i h1 h2
    exact mem_of_fst_range fits A i h1 (by omega)
  · intro i hi
    obtain ⟨a, b, ha, hb, hab⟩ := D (i+1) (by omega) (by omega)
    refine ⟨a, b, ?_, ?_, hab⟩
    · rw [← hch i]; simpa using ha
    · rw [← hch (i+1)]; exact hb
  · intro hkM
    rcases E with ⟨_, hfuel⟩ | ⟨hlen, a, b, ha, hb, hab⟩
    · omega
    · have hlen' : fits.length = k + 1 := by omega
      obtain ⟨z', hz'⟩ := mem_of_fst_range fits A (k+1) (by omega) (by omega)
      have hrunk : px.runLnZ (k+1) = some z' := B (k+1, z') hz'
      have hbpix : pixEv px (k+1) = some b := by rw [← hch (k+1)]; exact hb
      have hbz : z' = b := by
        have : pixEv px (k+1) = some z' := by simpa [pixEv] using hrunk
        rw [this] at hbpix
        exact Option.some.inj hbpix
      subst hbz
      exact ⟨a, z', by rw [← hch k]; exact ha, hbpix, hz', hab⟩

/-- Witness for C2 at pixel A of the end-to-end scenario. -/
theorem c2_chain_invariant_witness :
    fitPixel 11 2 pxA = .ok (some (2, [(1, 15), (2, 40)])) ∧
    ((∀ i, 1 ≤ i → i ≤ 2 → ∃ z, (i, z) ∈ [((1:ℕ), (15:ℚ)), (2, 40)]) ∧
     (∀ i, i < 2 → ∃ a b, pixEv pxA i = some a ∧ pixEv pxA (i+1) = some b ∧ 11 ≤ b - a) ∧
     (2 < 2 → ∃ a b, pixEv pxA 2 = some a ∧ pixEv pxA 3 = some b ∧
       (3, b) ∈ [((1:ℕ), (15:ℚ)), (2, 40)] ∧ b - a < 11)) := by
  have h : fitPixel 11 2 pxA = .ok (some (2, [(1, 15), (2, 40)])) := by
    norm_num [fitPixel, fitLoopAux, Except.map, pxA]
  exact ⟨h, c2_chain_invariant 11 2 pxA 2 [(1, 15), (2, 40)] h (by norm_num)⟩

/-- C9: in the per-pixel loop a non-finite evidence is fatal: if the evidence
chain is finite and above-threshold up to position `n - 1` (so the loop
reaches position `n`; position `0` is the null-model evidence) but the
evidence at position `n ≤ N_max` is non-finite, the `assert np.isfinite(...)`
fails and the worker aborts; in particular the threshold stopping test is
never evaluated on a non-finite evidence value. -/
theorem c9_nonfinite_evidence_fatal (thr : ℚ) (M : ℕ) (px : PixelData) (n : ℕ)
    (hnan : px.hasNaN = false) (hM : 1 ≤ M) (hnM : n ≤ M)
    (hsome : ∀ i, i < n → ∃ z, pixEv px i = some z)
    (hacc : ∀ i, i + 2 ≤ n → ∀ a b, pixEv px i = some a → pixEv px (i+1) = some b →
      thr ≤ b - a)
    (hbad : pixEv px n = none) :
    fitPixel thr M px = .error () := by
  cases n with
  | zero =>
    have hnull : px.nullLnZ = none := hbad
    simp [fitPixel, hnan, hM, hnull]
  | succ m =>
    obtain ⟨z0, hz0⟩ := hsome 0 (by omega)
    have hnull : px.nullLnZ = some z0 := hz0
    have hbadrun : px.runLnZ (m+1) = none := hbad
    simp only [fitPixel, hnan, Bool.false_eq_true, if_false, if_pos hM, hnull]
    cases hloop : fitLoopAux thr px.runLnZ M 1 z0 0 [] with
    | error e => cases e; rfl
    | ok pr =>
      exfalso
      obtain ⟨k, res⟩ := pr
      obtain ⟨A, B, C, D, E⟩ := fitLoopAux_spec thr px.runLnZ M 1 z0 k res le_rfl hloop
      have hch := chFun_eq_pixEv px z0 hnull
      have hmem_contra : ¬ (m + 1 ≤ res.length) := by
        intro hle
        obtain ⟨z', hz'⟩ := mem_of_fst_range res A (m+1) (by omega) hle
        have := B (m+1, z') hz'
        rw [hbadrun] at this
        exact Option.noConfusion this
      rcases E with ⟨hlen, hfuel⟩ | ⟨hlen, a, b, ha, hb, hab⟩
      · exact hmem_contra (by omega)
      · by_cases hcase : m + 1 ≤ res.length
        · exact hmem_contra hcase
        · have hk2 : k + 2 ≤ m + 1 := by omega
          have ha' : pixEv px k = some a := by rw [← hch k]; exact ha
          have hb' : pixEv px (k+1) = some b := by rw [← hch (k+1)]; exact hb
          have := hacc k (by omega) a b ha' hb'
          exact absurd hab (not_lt.mpr this)

/-- Witness for C9: a pixel whose null evidence is finite but whose order-1
sampler evidence is non-finite aborts the worker. -/
theorem c9_nonfinite_evidence_fatal_witness :
    (pxBad9.hasNaN = false) ∧ (pixEv pxBad9 1 = none) ∧
    fitPixel 11 1 pxBad9 = .error () :=
  ⟨rfl, rfl,
   c9_nonfinite_evidence_fatal 11 1 pxBad9 1 rfl (by norm_num) (by norm_num)
     (fun i hi => by
        interval_cases i
        exact ⟨0, rfl⟩)
     (fun i hi2 => by omega)
     rfl⟩

/-- Unfolding of the re-selection walk one order at a time. -/
theorem convWalk_succ (thr : ℚ) (cdata : ℕ → ℚ) (M : ℕ) :
    convWalk thr cdata (M+1) = convStep thr cdata (convWalk thr cdata M) M := by
  simp [convWalk, List.range_succ]

/-- Invariant of the re-selection walk: every increment below the reached
order passed the threshold test, the order is at most `ncomp_max`, and if the
walk stopped early then the increment at the reached order failed the test. -/
theorem convWalk_inv (thr : ℚ) (cdata : ℕ → ℚ) (M : ℕ) :
    (∀ i, i < convWalk thr cdata M → thr < cdata (i+1) - cdata i) ∧
    convWalk thr cdata M ≤ M ∧
    (convWalk thr cdata M < M →
      ¬ thr < cdata (convWalk thr cdata M + 1) - cdata (convWalk thr cdata M)) := by
  induction M with
  | zero =>
    refine ⟨?_, le_rfl, ?_⟩
    · intro i hi
      simp [convWalk] at hi
    · intro h
      exact absurd h (by simp [convWalk])
  | succ M ih =>
    obtain ⟨h1, h2, h3⟩ := ih
    rw [convWalk_succ]
    unfold convStep
    by_cases hc : convWalk thr cdata M = M ∧ thr < cdata (M+1) - cdata M
    · rw [if_pos hc]
      obtain ⟨hwM, hpass⟩ := hc
      refine ⟨?_, by omega, ?_⟩
      · intro i hi
        by_cases hiM : i < convWalk thr cdata M
        · exact h1 i hiM
        · have hieq : i = M := by omega
          rw [hieq]; exact hpass
      · intro hlt
        exfalso; omega
    · rw [if_neg hc]
      refine ⟨h1, by omega, ?_⟩
      intro _ hpass
      by_cases hwM : convWalk thr cdata M = M
      · exact hc ⟨hwM, by rw [hwM] at hpass; exact hpass⟩
      · exact h3 (by omega) hpass

/-- C4: `convolve_evidence` re-selects the smoothed order by walking upward
from `0` over the smoothed evidence maps: the reached order `n` has every
increment `cdata[i+1] - cdata[i]`, `i < n`, above the threshold, never more
than `ncomp_max`, and the walk stops at the first failing increment — an order
is never selected because a later increment alone passed. -/
theorem c4_conv_reselect_walk_upward (thr : ℚ) (cdata : ℕ → ℚ) (M : ℕ) :
    (∀ i, i < convWalk thr cdata M → thr < cdata (i+1) - cdata i) ∧
    convWalk thr cdata M ≤ M ∧
    (convWalk thr cdata M = M ∨
      ¬ thr < cdata (convWalk thr cdata M + 1) - cdata (convWalk thr cdata M)) := by
  obtain ⟨h1, h2, h3⟩ := convWalk_inv thr cdata M
  refine ⟨h1, h2, ?_⟩
  by_cases hw : convWalk thr cdata M = M
  · exact Or.inl hw
  · exact Or.inr (h3 (by omega))

/-- Witness for C4 on the scenario chain `[0, 15, 40]` with threshold 11
(both increments pass, so the walk reaches order 2 = `ncomp_max`). -/
theorem c4_conv_reselect_walk_upward_witness :
    convWalk 11 (fun i => if i = 0 then 0 else if i = 1 then 15 else 40) 2 = 2 ∧
    (∀ i, i < convWalk 11 (fun i => if i = 0 then 0 else if i = 1 then 15 else 40) 2 →
      (11:ℚ) < (fun i => if i = 0 then (0:ℚ) else if i = 1 then 15 else 40) (i+1) -
        (fun i => if i = 0 then (0:ℚ) else if i = 1 then 15 else 40) i) := by
  have hw : convWalk 11 (fun i => if i = 0 then 0 else if i = 1 then 15 else 40) 2 = 2 := by
    norm_num [convWalk, convStep, List.range_succ]
  exact ⟨hw, (c4_conv_reselect_walk_upward 11
    (fun i => if i = 0 then 0 else if i = 1 then 15 else 40) 2).1⟩

/-- C3: after the re-selection, the refill and the clamp, the smoothed order
exceeds the raw order by at most one wherever the raw order is not the unfit
sentinel, and the smoothed map carries the sentinel `-1` exactly where the raw
map does. -/
theorem c3_conv_nbest_clamp (thr : ℚ) (cdata : ℕ → ℚ) (M : ℕ) (nbest : ℤ)
    (h : -1 ≤ nbest) :
    (nbest ≠ -1 → convNbest thr cdata M nbest ≤ nbest + 1) ∧
    (convNbest thr cdata M nbest = -1 ↔ nbest = -1) := by
  have hc0 : (0:ℤ) ≤ (convWalk thr cdata M : ℤ) := Int.natCast_nonneg _
  simp only [convNbest]
  by_cases h1 : nbest = -1
  · rw [if_pos h1, h1]
    norm_num
  · rw [if_neg h1]
    by_cases h2 : 2 ≤ (convWalk thr cdata M : ℤ) - nbest
    · rw [if_pos h2]
      constructor
      · intro _; exact le_rfl
      · constructor
        · intro hh; omega
        · intro hh; exact absurd hh h1
    · rw [if_neg h2]
      constructor
      · intro _; omega
      · constructor
        · intro hh; omega
        · intro hh; exact absurd hh h1

/-- Witness for C3 at a pixel with raw `nbest = 0` and a smoothed chain whose
first increment passes the threshold (the walk reaches 2 but the clamp caps
the smoothed order at 1). -/
theorem c3_conv_nbest_clamp_witness :
    ((0:ℤ) ≠ -1 → convNbest 11 (fun i => (15 * i : ℚ)) 2 0 ≤ 0 + 1) ∧
    (convNbest 11 (fun i => (15 * i : ℚ)) 2 0 = -1 ↔ (0:ℤ) = -1) :=
  c3_conv_nbest_clamp 11 (fun i => (15 * i : ℚ)) 2 0 (by norm_num)

/-- C5: a pixel whose contributing spectra contain non-finite samples is
skipped by the fitting loop: no group and no fits are written (`.ok none`),
the aggregated map keeps the `-1` sentinel there, and the worker continues
with the remaining pixels of its list. -/
theorem c5_nan_pixel_skipped (thr : ℚ) (M : ℕ) (px : PixelData)
    (h : px.hasNaN = true) :
    fitPixel thr M px = .ok none ∧
    aggNbest (fitPixel thr M px) = -1 ∧
    (∀ l1 l2, fitAll thr M (l1 ++ px :: l2) =
      (fitAll thr M l1).bind
        (fun r1 => (fitAll thr M l2).map (fun r2 => r1 ++ none :: r2))) := by
  have hfp : fitPixel thr M px = .ok none := by simp [fitPixel, h]
  refine ⟨hfp, by rw [hfp]; rfl, ?_⟩
  intro l1 l2
  induction l1 with
  | nil =>
    simp only [List.nil_append, fitAll, hfp]
    cases fitAll thr M l2 <;> simp [fitAll, Except.map, Except.bind]
  | cons a l1 ih =>
    simp only [List.cons_append, fitAll]
    cases fitPixel thr M a with
    | error e => simp [Except.bind]
    | ok r =>
      dsimp only
      simp only [List.append_eq]
      rw [ih]
      cases fitAll thr M l1 <;> cases fitAll thr M l2 <;>
        simp [Except.map, Except.bind]

/-- Witness for C5 at pixel C of the end-to-end scenario. -/
theorem c5_nan_pixel_skipped_witness :
    pxC.hasNaN = true ∧
    (fitPixel 11 2 pxC = .ok none ∧
     aggNbest (fitPixel 11 2 pxC) = -1 ∧
     (∀ l1 l2, fitAll 11 2 (l1 ++ pxC :: l2) =
       (fitAll 11 2 l1).bind
         (fun r1 => (fitAll 11 2 l2).map (fun r2 => r1 ++ none :: r2)))) :=
  ⟨rfl, c5_nan_pixel_skipped 11 2 pxC rfl⟩

/-! Traversal and linking of the chunked store (C6, C8). -/

/-- A broken link among the `lat` members aborts the inner traversal. -/
theorem iterLat_broken {α : Type} (lon : ℕ) :
    ∀ (lats : List (ℕ × Entry α)) (lat : ℕ), (lat, Entry.broken) ∈ lats →
      ∃ s, iterLat lon lats = .error s := by
  intro lats
  induction lats with
  | nil => intro lat h; exact absurd h (List.not_mem_nil _)
  | cons q rest ih =>
    intro lat h
    obtain ⟨lat', e'⟩ := q
    rcases List.mem_cons.mp h with hh | hh
    · have he : Entry.broken = e' := congrArg Prod.snd hh
      rw [← he]
      exact ⟨"Broken external HDF link under /pix", by simp [iterLat, resolveEntry]⟩
    · obtain ⟨s, hs⟩ := ih lat hh
      cases e' with
      | group a => exact ⟨s, by simp [iterLat, resolveEntry, hs, Except.map]⟩
      | dataset => exact ⟨s, by simp [iterLat, resolveEntry, hs]⟩
      | broken =>
        exact ⟨"Broken external HDF link under /pix", by simp [iterLat, resolveEntry]⟩

/-- C6: during traversal of the linked store, a broken external link target
under `/pix` is a hard error: `iter_pix_groups` aborts the enumeration
instead of silently skipping the pixel, so aggregation cannot proceed with an
undetected hole. -/
theorem c6_broken_link_hard_error {α : Type}
    (t : List (ℕ × List (ℕ × Entry α)))
    (h : ∃ lon lats lat, (lon, lats) ∈ t ∧ (lat, Entry.broken) ∈ lats) :
    ∃ s, iterPixGroups t = .error s := by
  induction t with
  | nil =>
    obtain ⟨lon, lats, lat, hmem, _⟩ := h
    exact absurd hmem (List.not_mem_nil _)
  | cons q rest ih =>
    obtain ⟨lon', lats'⟩ := q
    cases hit : iterLat lon' lats' with
    | error s => exact ⟨s, by simp [iterPixGroups, hit]⟩
    | ok l1 =>
      obtain ⟨lon, lats, lat, hmem, hbrk⟩ := h
      rcases List.mem_cons.mp hmem with hh | hh
      · have h1 : lats = lats' := congrArg Prod.snd hh
        obtain ⟨s, hs⟩ := iterLat_broken lon' lats' lat (h1 ▸ hbrk)
        rw [hit] at hs
        exact absurd hs (by simp)
      · obtain ⟨s, hs⟩ := ih ⟨lon, lats, lat, hh, hbrk⟩
        exact ⟨s, by simp [iterPixGroups, hit, hs, Except.map]⟩

/-- Witness for C6: a table whose single `/pix` entry is a broken link. -/
theorem c6_broken_link_hard_error_witness :
    ((0, [(0, (Entry.broken : Entry ℕ))]) ∈ [((0:ℕ), [((0:ℕ), (Entry.broken : Entry ℕ))])] ∧
      ((0:ℕ), (Entry.broken : Entry ℕ)) ∈ [((0:ℕ), (Entry.broken : Entry ℕ))]) ∧
    ∃ s, iterPixGroups [((0:ℕ), [((0:ℕ), (Entry.broken : Entry ℕ))])] = .error s :=
  ⟨⟨List.mem_singleton.mpr rfl, List.mem_singleton.mpr rfl⟩,
   c6_broken_link_hard_error _
     ⟨0, [(0, Entry.broken)], 0, List.mem_singleton.mpr rfl, List.mem_singleton.mpr rfl⟩⟩

/-- The inner traversal of a `lon` group without broken links succeeds and
yields exactly its group leaves, in order. -/
theorem iterLat_ok {α : Type} (lon : ℕ) :
    ∀ lats : List (ℕ × Entry α), (∀ q ∈ lats, q.2 ≠ Entry.broken) →
      iterLat lon lats = .ok (entryGroups (lats.map (fun q => ((lon, q.1), q.2)))) := by
  intro lats
  induction lats with
  | nil => intro _; rfl
  | cons q rest ih =>
    intro hq
    obtain ⟨lat, e⟩ := q
    have hrest : ∀ q ∈ rest, q.2 ≠ Entry.broken :=
      fun q hmem => hq q (List.mem_cons_of_mem _ hmem)
    cases e with
    | group a =>
      simp [iterLat, resolveEntry, ih hrest, Except.map, entryGroups,
        List.filterMap_cons, groupOfEntry]
    | dataset =>
      simp [iterLat, resolveEntry, ih hrest, entryGroups,
        List.filterMap_cons, groupOfEntry]
    | broken => exact absurd rfl (hq (lat, Entry.broken) (List.mem_cons_self _ _))

/-- Traversal of a tree without broken links succeeds and yields exactly the
group leaves of the flattened tree, in traversal order. -/
theorem iterPixGroups_ok {α : Type} :
    ∀ t : List (ℕ × List (ℕ × Entry α)),
      (∀ pe ∈ flatTree t, pe.2 ≠ Entry.broken) →
      iterPixGroups t = .ok (entryGroups (flatTree t)) := by
  intro t
  induction t with
  | nil => intro _; rfl
  | cons p rest ih =>
    intro hb
    obtain ⟨lon, lats⟩ := p
    have hlats : ∀ q ∈ lats, q.2 ≠ Entry.broken := by
      intro q hq
      refine hb ((lon, q.1), q.2) ?_
      simp only [flatTree, List.flatMap_cons, List.mem_append]
      exact Or.inl (List.mem_map_of_mem _ hq)
    have hrest : ∀ pe ∈ flatTree rest, pe.2 ≠ Entry.broken := by
      intro pe hpe
      refine hb pe ?_
      simp only [flatTree, List.flatMap_cons, List.mem_append]
      exact Or.inr hpe
    simp only [iterPixGroups, iterLat_ok lon lats hlats, ih hrest, Except.map]
    simp [flatTree, entryGroups, List.flatMap_cons, List.filterMap_append]

/-- Registering one leaf adds exactly that leaf to the tree's leaves. -/
theorem flatTree_insertPix {α : Type} :
    ∀ (t : List (ℕ × List (ℕ × Entry α))) (lon lat : ℕ) (e : Entry α),
      (flatTree (insertPix t lon lat e)).Perm (((lon, lat), e) :: flatTree t) := by
  intro t lon lat e
  induction t with
  | nil => simp [insertPix, flatTree]
  | cons p rest ih =>
    obtain ⟨lon', lats⟩ := p
    by_cases hl : lon' = lon
    · subst hl
      rw [show insertPix ((lon', lats) :: rest) lon' lat e =
        (lon', lats ++ [(lat, e)]) :: rest from by simp [insertPix]]
      simp only [flatTree, List.flatMap_cons, List.map_append,
        List.map_cons, List.map_nil, List.append_assoc, List.singleton_append]
      exact List.perm_middle
    · simp only [insertPix, if_neg hl, flatTree, List.flatMap_cons]
      exact (List.Perm.append_left _ ih).trans List.perm_middle

/-- Linking one chunk adds exactly its pixel groups to the tree's leaves. -/
theorem flatTree_insert_fold {α : Type} (ch : List ((ℕ × ℕ) × α)) :
    ∀ t, (flatTree (ch.foldl
        (fun t2 pe => insertPix t2 pe.1.1 pe.1.2 (Entry.group pe.2)) t)).Perm
      ((ch.map (fun pe => (pe.1, Entry.group pe.2))) ++ flatTree t) := by
  induction ch with
  | nil => intro t; simp
  | cons pe ch ih =>
    intro t
    simp only [List.foldl_cons, List.map_cons]
    refine (ih (insertPix t pe.1.1 pe.1.2 (Entry.group pe.2))).trans ?_
    refine (List.Perm.append_left _ ?_).trans List.perm_middle
    exact flatTree_insertPix t pe.1.1 pe.1.2 (Entry.group pe.2)

/-- The leaves of the table built by `link_files` are exactly the chunks'
pixel groups (as resolvable group links), up to order. -/
theorem flatTree_linkFiles {α : Type} (chunks : List (List ((ℕ × ℕ) × α))) :
    (flatTree (linkFiles chunks)).Perm
      ((chunks.flatten).map (fun pe => (pe.1, Entry.group pe.2))) := by
  suffices h : ∀ t, (flatTree (chunks.foldl
      (fun t ch => ch.foldl
        (fun t2 pe => insertPix t2 pe.1.1 pe.1.2 (Entry.group pe.2)) t) t)).Perm
      ((chunks.flatten).map (fun pe => (pe.1, Entry.group pe.2)) ++ flatTree t) by
    have h0 := h []
    simpa [linkFiles, flatTree] using h0
  induction chunks with
  | nil => intro t; simp
  | cons ch chunks ih =>
    intro t
    simp only [List.foldl_cons, List.flatten_cons, List.map_append]
    refine (ih _).trans ?_
    refine (List.Perm.append_left _ (flatTree_insert_fold ch t)).trans ?_
    exact (List.perm_append_comm_assoc _ _ _).trans (by rw [List.append_assoc])

/-- Extracting groups from pure group leaves recovers the original list. -/
theorem entryGroups_map_group {α : Type} :
    ∀ l : List ((ℕ × ℕ) × α),
      entryGroups (l.map (fun pe => (pe.1, Entry.group pe.2))) = l := by
  intro l
  induction l with
  | nil => rfl
  | cons pe l ih =>
    simp only [List.map_cons, entryGroups, List.filterMap_cons, groupOfEntry] at ih ⊢
    rw [ih]

/-- Disjoint chunks with unique pixels make the concatenated pixel list
duplicate-free. -/
theorem nodup_flatten_map_fst {α : Type} :
    ∀ chunks : List (List ((ℕ × ℕ) × α)),
      (∀ ch ∈ chunks, (ch.map Prod.fst).Nodup) →
      chunks.Pairwise
        (fun c1 c2 => ∀ p, p ∈ c1.map Prod.fst → p ∉ c2.map Prod.fst) →
      ((chunks.flatten).map Prod.fst).Nodup := by
  intro chunks
  induction chunks with
  | nil => intro _ _; simp
  | cons ch chunks ih =>
    intro hnd hdisj
    rw [List.flatten_cons, List.map_append, List.nodup_append]
    obtain ⟨hdh, hdt⟩ := List.pairwise_cons.mp hdisj
    refine ⟨hnd ch (List.mem_cons_self _ _),
      ih (fun c hc => hnd c (List.mem_cons_of_mem _ hc)) hdt, ?_⟩
    intro a ha hha
    obtain ⟨pe, hpe, rfl⟩ := List.mem_map.mp hha
    obtain ⟨c2, hc2, hpec2⟩ := List.mem_flatten.mp hpe
    exact hdh c2 hc2 _ ha (List.mem_map_of_mem _ hpec2)

/-- C8: after `link_files` over chunk files with pairwise-disjoint pixel
sets, `iter_pix_groups` on the table file enumerates exactly the union of the
chunks' pixel groups — no duplicates, no omissions, no error. -/
theorem c8_linked_union {α : Type} (chunks : List (List ((ℕ × ℕ) × α)))
    (hnd : ∀ ch ∈ chunks, (ch.map Prod.fst).Nodup)
    (hdisj : chunks.Pairwise
      (fun c1 c2 => ∀ p, p ∈ c1.map Prod.fst → p ∉ c2.map Prod.fst)) :
    ∃ l, iterPixGroups (linkFiles chunks) = .ok l ∧
      (∀ pa, pa ∈ l ↔ pa ∈ chunks.flatten) ∧
      (l.map Prod.fst).Nodup := by
  have hperm := flatTree_linkFiles chunks
  have hnb : ∀ pe ∈ flatTree (linkFiles chunks), pe.2 ≠ Entry.broken := by
    intro pe hpe
    have hmem := hperm.mem_iff.mp hpe
    obtain ⟨pe', _, rfl⟩ := List.mem_map.mp hmem
    simp
  have hok := iterPixGroups_ok (linkFiles chunks) hnb
  have h2 : List.filterMap groupOfEntry
      ((chunks.flatten).map (fun pe => (pe.1, Entry.group pe.2))) = chunks.flatten :=
    entryGroups_map_group _
  have hperm2 : (entryGroups (flatTree (linkFiles chunks))).Perm (chunks.flatten) :=
    h2 ▸ hperm.filterMap groupOfEntry
  refine ⟨entryGroups (flatTree (linkFiles chunks)), hok, ?_, ?_⟩
  · intro pa
    exact hperm2.mem_iff
  · exact (hperm2.map Prod.fst).nodup_iff.mpr (nodup_flatten_map_fst chunks hnd hdisj)

/-- Witness for C8 with two disjoint one-pixel chunks. -/
theorem c8_linked_union_witness :
    (∀ ch ∈ [[(((0:ℕ), (0:ℕ)), (5:ℕ))], [(((1:ℕ), (0:ℕ)), (7:ℕ))]],
      (ch.map Prod.fst).Nodup) ∧
    ∃ l, iterPixGroups
        (linkFiles [[(((0:ℕ), (0:ℕ)), (5:ℕ))], [(((1:ℕ), (0:ℕ)), (7:ℕ))]]) = .ok l ∧
      (∀ pa, pa ∈ l ↔
        pa ∈ [[(((0:ℕ), (0:ℕ)), (5:ℕ))], [(((1:ℕ), (0:ℕ)), (7:ℕ))]].flatten) ∧
      (l.map Prod.fst).Nodup :=
  ⟨by decide,
   c8_linked_union [[(((0:ℕ), (0:ℕ)), (5:ℕ))], [(((1:ℕ), (0:ℕ)), (7:ℕ))]]
     (by decide) (by decide)⟩

/-! Grid partitioning (C7). -/

/-- Membership in the row slice `k::step` of a length-`n` axis. -/
theorem mem_sliceIdx (n k step r : ℕ) (hs : 0 < step) :
    r ∈ sliceIdx n k step ↔ (∃ i, r = k + step * i) ∧ r < n := by
  unfold sliceIdx
  rw [List.mem_range']
  constructor
  · rintro ⟨i, hi, rfl⟩
    have h1 : (i+1) * step ≤ n - k + step - 1 := (Nat.le_div_iff_mul_le hs).mp hi
    have h2 : (i+1) * step = step * i + step := by ring
    exact ⟨⟨i, rfl⟩, by omega⟩
  · rintro ⟨⟨i, rfl⟩, hlt⟩
    refine ⟨i, ?_, rfl⟩
    have h2 : (i + 1) * step ≤ n - k + step - 1 := by
      have h3 : (i + 1) * step = step * i + step := by ring
      omega
    exact (Nat.le_div_iff_mul_le hs).mpr h2

/-- Membership in a worker's pixel list. -/
theorem mem_procChunk (shape : ℕ × ℕ) (nproc k : ℕ) (p : ℕ × ℕ) :
    p ∈ procChunk shape nproc k ↔
      p.1 ∈ sliceIdx shape.1 k nproc ∧ p.2 < shape.2 := by
  obtain ⟨a, b⟩ := p
  simp only [procChunk, List.mem_flatMap, List.mem_map, List.mem_range, Prod.mk.injEq]
  constructor
  · rintro ⟨r, hr, c, hc, rfl, rfl⟩
    exact ⟨hr, hc⟩
  · rintro ⟨ha, hb⟩
    exact ⟨a, ha, b, hb, rfl, rfl⟩

/-- The worker's pixel list is the row slice crossed with the column range. -/
theorem procChunk_eq_product (shape : ℕ × ℕ) (nproc k : ℕ) :
    procChunk shape nproc k =
      (sliceIdx shape.1 k nproc).product (List.range shape.2) := rfl

/-- C7: `get_multiproc_indices(shape, nproc)` partitions the grid into
`nproc` interleaved (strided, `i::nproc`) pixel sets: pairwise disjoint,
duplicate-free, jointly covering every grid cell, with sizes within one row
of each other. -/
theorem c7_multiproc_partition (shape : ℕ × ℕ) (nproc : ℕ) (h : 1 ≤ nproc) :
    (get_multiproc_indices shape nproc).length = nproc ∧
    (∀ p : ℕ × ℕ, (∃ c ∈ get_multiproc_indices shape nproc, p ∈ c) ↔
      (p.1 < shape.1 ∧ p.2 < shape.2)) ∧
    (∀ k1 k2, k1 < nproc → k2 < nproc → k1 ≠ k2 →
      ∀ p, p ∈ procChunk shape nproc k1 → p ∉ procChunk shape nproc k2) ∧
    (∀ k, k < nproc → ∀ p ∈ procChunk shape nproc k, p.1 % nproc = k) ∧
    (∀ k, k < nproc → (procChunk shape nproc k).Nodup) ∧
    (∀ k1 k2, k1 < nproc → k2 < nproc →
      (procChunk shape nproc k1).length ≤ (procChunk shape nproc k2).length + shape.2) := by
  have hstride : ∀ k, k < nproc → ∀ p ∈ procChunk shape nproc k, p.1 % nproc = k := by
    intro k hk p hp
    obtain ⟨h1, _⟩ := (mem_procChunk shape nproc k p).mp hp
    obtain ⟨⟨i, heq⟩, _⟩ := (mem_sliceIdx shape.1 k nproc p.1 (by omega)).mp h1
    rw [heq, Nat.add_mul_mod_self_left]
    exact Nat.mod_eq_of_lt hk
  have hlen : ∀ k, (procChunk shape nproc k).length =
      sliceCount shape.1 k nproc * shape.2 := by
    intro k
    have hp := List.length_product (sliceIdx shape.1 k nproc) (List.range shape.2)
    simpa [sliceIdx] using hp
  refine ⟨by simp [get_multiproc_indices], ?_, ?_, hstride, ?_, ?_⟩
  · intro p
    constructor
    · rintro ⟨c, hc, hp⟩
      obtain ⟨k, hk, rfl⟩ := List.mem_map.mp hc
      have hk' : k < nproc := List.mem_range.mp hk
      obtain ⟨h1, h2⟩ := (mem_procChunk shape nproc k p).mp hp
      obtain ⟨_, hlt⟩ := (mem_sliceIdx shape.1 k nproc p.1 (by omega)).mp h1
      exact ⟨hlt, h2⟩
    · rintro ⟨h1, h2⟩
      refine ⟨procChunk shape nproc (p.1 % nproc),
        List.mem_map_of_mem _ (List.mem_range.mpr (Nat.mod_lt _ (by omega))), ?_⟩
      refine (mem_procChunk _ _ _ _).mpr ⟨?_, h2⟩
      refine (mem_sliceIdx _ _ _ _ (by omega)).mpr ⟨⟨p.1 / nproc, ?_⟩, h1⟩
      have hdm := Nat.div_add_mod p.1 nproc
      omega
  · intro k1 k2 hk1 hk2 hne p hp1 hp2
    have e1 := hstride k1 hk1 p hp1
    have e2 := hstride k2 hk2 p hp2
    exact hne (e1 ▸ e2)
  · intro k hk
    rw [procChunk_eq_product]
    exact (List.nodup_range' k (sliceCount shape.1 k nproc) nproc (by omega)).product
      (List.nodup_range _)
  · intro k1 k2 hk1 hk2
    rw [hlen k1, hlen k2]
    have hcount : sliceCount shape.1 k1 nproc ≤ sliceCount shape.1 k2 nproc + 1 := by
      unfold sliceCount
      have h1 : shape.1 - k1 + nproc - 1 ≤ (shape.1 - k2 + nproc - 1) + nproc := by
        omega
      have h2 : (shape.1 - k1 + nproc - 1) / nproc ≤
          ((shape.1 - k2 + nproc - 1) + nproc) / nproc := Nat.div_le_div_right h1
      rw [Nat.add_div_right _ (by omega : 0 < nproc)] at h2
      exact h2
    calc sliceCount shape.1 k1 nproc * shape.2
        ≤ (sliceCount shape.1 k2 nproc + 1) * shape.2 :=
          Nat.mul_le_mul_right _ hcount
      _ = sliceCount shape.1 k2 nproc * shape.2 + shape.2 := by ring

/-- Witness for C7 on a 3×2 grid split over 2 workers. -/
theorem c7_multiproc_partition_witness :
    (1 ≤ 2) ∧ (get_multiproc_indices ((3:ℕ), (2:ℕ)) 2).length = 2 :=
  ⟨by norm_num, (c7_multiproc_partition (3, 2) 2 (by norm_num)).1⟩

/-! Constructor of the store (C10). -/

/-- C10: when the table file already carries an `nchunks` attribute the
constructor adopts the persisted value, ignoring its `nchunks` argument, and
leaves the attributes unchanged; reopening the store therefore yields the
same `nchunks`, and the chunk path list is determined by the stored
attribute, independent of the constructor argument. -/
theorem c10_nchunks_persisted (attrs : TableAttrs) (n k1 k2 : ℕ) (d : String)
    (h : attrs.nchunksAttr = some n) :
    hdfStoreInit attrs k1 = (n, attrs) ∧
    hdfStoreInit (hdfStoreInit attrs k1).2 k2 = (n, attrs) ∧
    chunk_paths d (hdfStoreInit attrs k1).1 =
      chunk_paths d (hdfStoreInit attrs k2).1 := by
  simp [hdfStoreInit, h]

/-- Witness for C10 with a stored attribute of 3 and arguments 7 and 5. -/
theorem c10_nchunks_persisted_witness :
    (TableAttrs.mk (some 3)).nchunksAttr = some 3 ∧
    hdfStoreInit ⟨some 3⟩ 7 = (3, ⟨some 3⟩) ∧
    hdfStoreInit (hdfStoreInit ⟨some 3⟩ 7).2 5 = (3, ⟨some 3⟩) ∧
    chunk_paths "run.store" (hdfStoreInit ⟨some 3⟩ 7).1 =
      chunk_paths "run.store" (hdfStoreInit ⟨some 3⟩ 5).1 :=
  ⟨rfl, c10_nchunks_persisted ⟨some 3⟩ 3 7 5 "run.store" rfl⟩

end NestFit
